import Mathlib

/-!
Verification of the coordination-and-rendering core of a 64x32 LED
now-playing display (`spotify_lyrics_matrix.py`): lyric-timeline parsing
and lookup, the tick-based marquee scroller, progress extrapolation,
latest-value channels, the coordinator's track-change logic, and the
fetcher's album-variant selection.  Python strings are embedded as
`List Char`, Python `int` as `ℤ`, Python `float` as `ℚ` (all arithmetic
the program performs on these values is exact in range), and Python
wall-clock seconds as `ℚ`.
-/

namespace LedBoard

/-- `LyricLine` dataclass: a timestamp in seconds and the lyric text. -/
structure LyricLine where
  t : ℚ
  text : List Char
deriving DecidableEq, Repr, Inhabited

/-- Python floor division `(lo + hi) // 2` lands between `lo` and `hi`. -/
theorem fdiv_two_between {lo hi : Int} (h : lo ≤ hi) :
    lo ≤ (lo + hi).fdiv 2 ∧ (lo + hi).fdiv 2 ≤ hi := by
  rw [Int.fdiv_eq_ediv _ (by norm_num : (0:Int) ≤ 2)]
  omega

/-- The `while lo <= hi` loop of `current_line_index`.  `mid = (lo + hi) // 2`
uses Python floor division, embedded as `Int.fdiv`.  The list access
`lrc[mid]` is embedded with a default; every reachable call keeps
`0 ≤ lo ≤ mid ≤ hi < lrc.length`, so the default is never consulted. -/
def searchLoop (lrc : List LyricLine) (tq : ℚ) (lo hi ans : Int) : Int :=
  if _h : lo ≤ hi then
    let mid := (lo + hi).fdiv 2
    if (lrc.getD mid.toNat default).t ≤ tq then
      searchLoop lrc tq (mid + 1) hi mid
    else
      searchLoop lrc tq lo (mid - 1) ans
  else ans
termination_by (hi + 1 - lo).toNat
decreasing_by
  · have := fdiv_two_between _h
    omega
  · have := fdiv_two_between _h
    omega

/-- `current_line_index(lrc, t)`: `-1` for the empty list, otherwise the
binary-search loop started at `lo = 0`, `hi = len(lrc) - 1`, `ans = -1`. -/
def current_line_index (lrc : List LyricLine) (tq : ℚ) : Int :=
  if lrc.isEmpty then -1
  else searchLoop lrc tq 0 ((lrc.length : Int) - 1) (-1)

/-- A timeline is sorted when timestamps are non-decreasing (what
`out.sort(key=lambda a: a.t)` establishes). -/
def SortedByT (lrc : List LyricLine) : Prop :=
  List.Pairwise (fun a b => a.t ≤ b.t) lrc

theorem lyric_getD_eq_get {l : List LyricLine} {n : Nat} (h : n < l.length) :
    l.getD n default = l.get ⟨n, h⟩ := by
  simp [List.getD_eq_getElem?_getD, List.getElem?_eq_getElem h]

theorem sorted_get_mono {lrc : List LyricLine} (hs : SortedByT lrc)
    {i j : Fin lrc.length} (hij : (i : Nat) ≤ j) :
    (lrc.get i).t ≤ (lrc.get j).t := by
  rcases Nat.lt_or_ge (i : Nat) (j : Nat) with h | h
  · exact List.pairwise_iff_get.mp hs i j h
  · have : i = j := Fin.ext (Nat.le_antisymm hij h)
    rw [this]

/-- Loop invariant of the binary search: `ans = lo - 1`, everything left of
`lo` is `≤ tq`, everything right of `hi` is `> tq`.  On a sorted timeline the
loop returns the unique `r` with entry `i` `≤ tq` iff `i ≤ r`. -/
theorem searchLoop_invariant (lrc : List LyricLine) (tq : ℚ) (hs : SortedByT lrc)
    (lo hi ans : Int) :
    0 ≤ lo → lo ≤ hi + 1 → hi < (lrc.length : Int) → ans = lo - 1 →
    (∀ i : Nat, (h : i < lrc.length) → (i : Int) < lo → (lrc.get ⟨i, h⟩).t ≤ tq) →
    (∀ i : Nat, (h : i < lrc.length) → hi < (i : Int) → ¬ (lrc.get ⟨i, h⟩).t ≤ tq) →
    -1 ≤ searchLoop lrc tq lo hi ans ∧ searchLoop lrc tq lo hi ans < (lrc.length : Int) ∧
      (∀ i : Nat, (h : i < lrc.length) →
        ((lrc.get ⟨i, h⟩).t ≤ tq ↔ (i : Int) ≤ searchLoop lrc tq lo hi ans)) := by
  induction lo, hi, ans using searchLoop.induct lrc tq with
  | case1 lo hi ans hle mid hmid ih =>
    intro hlo _hlohi hhi _hans hbelow habove
    have hmid2 := fdiv_two_between hle
    rw [searchLoop]
    simp only [dif_pos hle]
    simp only [if_pos hmid]
    apply ih
    · omega
    · omega
    · exact hhi
    · omega
    · intro i h hilt
      have hmidlt : mid.toNat < lrc.length := by omega
      have hm : (lrc.get ⟨mid.toNat, hmidlt⟩).t ≤ tq := by
        rwa [lyric_getD_eq_get hmidlt] at hmid
      calc (lrc.get ⟨i, h⟩).t ≤ (lrc.get ⟨mid.toNat, hmidlt⟩).t := by
            apply sorted_get_mono hs
            simp only []
            omega
        _ ≤ tq := hm
    · exact habove
  | case2 lo hi ans hle mid hmid ih =>
    intro hlo hlohi hhi hans hbelow habove
    have hmid2 := fdiv_two_between hle
    rw [searchLoop]
    simp only [dif_pos hle]
    simp only [if_neg hmid]
    apply ih
    · exact hlo
    · omega
    · omega
    · exact hans
    · exact hbelow
    · intro i h hilt
      have hmidlt : mid.toNat < lrc.length := by omega
      intro hcon
      apply hmid
      rw [lyric_getD_eq_get hmidlt]
      calc (lrc.get ⟨mid.toNat, hmidlt⟩).t ≤ (lrc.get ⟨i, h⟩).t := by
            apply sorted_get_mono hs
            simp only []
            omega
        _ ≤ tq := hcon
  | case3 lo hi ans hle =>
    intro hlo hlohi hhi hans hbelow habove
    rw [searchLoop]
    simp only [dif_neg hle]
    refine ⟨by omega, by omega, ?_⟩
    intro i h
    constructor
    · intro hit
      by_contra hcon
      exact habove i h (by omega) hit
    · intro hile
      exact hbelow i h (by omega)

/-- Without any sortedness assumption the loop still stays in
`[-1, lrc.length)` : `ans` is only ever replaced by an in-range `mid`. -/
theorem searchLoop_bounds (lrc : List LyricLine) (tq : ℚ) (lo hi ans : Int) :
    0 ≤ lo → hi < (lrc.length : Int) → -1 ≤ ans → ans < (lrc.length : Int) →
    -1 ≤ searchLoop lrc tq lo hi ans ∧ searchLoop lrc tq lo hi ans < (lrc.length : Int) := by
  induction lo, hi, ans using searchLoop.induct lrc tq with
  | case1 lo hi ans hle mid hmid ih =>
    intro hlo hhi _hans1 _hans2
    have hmid2 := fdiv_two_between hle
    rw [searchLoop]
    simp only [dif_pos hle, if_pos hmid]
    apply ih <;> omega
  | case2 lo hi ans hle mid hmid ih =>
    intro hlo hhi hans1 hans2
    have hmid2 := fdiv_two_between hle
    rw [searchLoop]
    simp only [dif_pos hle, if_neg hmid]
    apply ih <;> omega
  | case3 lo hi ans hle =>
    intro hlo hhi hans1 hans2
    rw [searchLoop]
    simp only [dif_neg hle]
    exact ⟨hans1, hans2⟩

/-- C1: on a timeline with non-decreasing timestamps, `current_line_index`
returns the greatest index whose timestamp is `≤ t`, and `-1` when no entry
has timestamp `≤ t` (in particular on the empty timeline and for any `t`
before the first entry). -/
theorem current_line_index_greatest (lrc : List LyricLine) (tq : ℚ)
    (hs : SortedByT lrc) :
    (current_line_index lrc tq = -1 ∧
      ∀ i : Nat, (h : i < lrc.length) → ¬ (lrc.get ⟨i, h⟩).t ≤ tq) ∨
    (0 ≤ current_line_index lrc tq ∧
      ∃ hr : (current_line_index lrc tq).toNat < lrc.length,
        (lrc.get ⟨(current_line_index lrc tq).toNat, hr⟩).t ≤ tq ∧
        ∀ i : Nat, (h : i < lrc.length) → (lrc.get ⟨i, h⟩).t ≤ tq →
          (i : Int) ≤ current_line_index lrc tq) := by
  unfold current_line_index
  by_cases he : lrc.isEmpty
  · left
    rw [if_pos he]
    refine ⟨rfl, ?_⟩
    intro i h
    rw [List.isEmpty_iff] at he
    subst he
    simp at h
  · rw [if_neg he]
    rw [List.isEmpty_iff] at he
    have hlen : 0 < lrc.length := List.length_pos.mpr he
    have hinv := searchLoop_invariant lrc tq hs 0 ((lrc.length : Int) - 1) (-1)
      (by omega) (by omega) (by omega) (by omega)
      (by intro i h hilt; omega)
      (by intro i h hgt hcon; omega)
    obtain ⟨h1, h2, h3⟩ := hinv
    set r := searchLoop lrc tq 0 ((lrc.length : Int) - 1) (-1) with hr
    rcases Int.lt_or_le r 0 with hneg | hpos
    · left
      refine ⟨by omega, ?_⟩
      intro i h hcon
      have := (h3 i h).mp hcon
      omega
    · right
      refine ⟨hpos, ⟨by omega, ?_, ?_⟩⟩
      · exact (h3 r.toNat (by omega)).mpr (by omega)
      · intro i h hit
        exact (h3 i h).mp hit

/-- Witness for `current_line_index_greatest` on the concrete sorted
timeline `[(1, "a"), (3, "b")]` at `t = 2`. -/
theorem current_line_index_greatest_witness :
    SortedByT [⟨1, ['a']⟩, ⟨3, ['b']⟩] ∧
    ((current_line_index [⟨1, ['a']⟩, ⟨3, ['b']⟩] 2 = -1 ∧
      ∀ i : Nat, (h : i < ([⟨1, ['a']⟩, ⟨3, ['b']⟩] : List LyricLine).length) →
        ¬ (([⟨1, ['a']⟩, ⟨3, ['b']⟩] : List LyricLine).get ⟨i, h⟩).t ≤ 2) ∨
    (0 ≤ current_line_index [⟨1, ['a']⟩, ⟨3, ['b']⟩] 2 ∧
      ∃ hr : (current_line_index [⟨1, ['a']⟩, ⟨3, ['b']⟩] 2).toNat <
          ([⟨1, ['a']⟩, ⟨3, ['b']⟩] : List LyricLine).length,
        (([⟨1, ['a']⟩, ⟨3, ['b']⟩] : List LyricLine).get
            ⟨(current_line_index [⟨1, ['a']⟩, ⟨3, ['b']⟩] 2).toNat, hr⟩).t ≤ 2 ∧
        ∀ i : Nat, (h : i < ([⟨1, ['a']⟩, ⟨3, ['b']⟩] : List LyricLine).length) →
          (([⟨1, ['a']⟩, ⟨3, ['b']⟩] : List LyricLine).get ⟨i, h⟩).t ≤ 2 →
          (i : Int) ≤ current_line_index [⟨1, ['a']⟩, ⟨3, ['b']⟩] 2)) :=
  ⟨by unfold SortedByT; decide, current_line_index_greatest _ 2 (by unfold SortedByT; decide)⟩

/-- C10: on any timeline (sorted or not) and any query time, the lookup
result lies in `[-1, length)`, so the coordinator's `lrc[idx]` access under
its `idx >= 0` guard is in bounds. -/
theorem current_line_index_in_range (lrc : List LyricLine) (tq : ℚ) :
    -1 ≤ current_line_index lrc tq ∧
    current_line_index lrc tq < (lrc.length : Int) ∧
    (0 ≤ current_line_index lrc tq →
      (current_line_index lrc tq).toNat < lrc.length) := by
  unfold current_line_index
  by_cases he : lrc.isEmpty
  · rw [if_pos he]
    rw [List.isEmpty_iff] at he
    subst he
    refine ⟨by omega, by simp, by omega⟩
  · rw [if_neg he]
    rw [List.isEmpty_iff] at he
    have hlen : 0 < lrc.length := List.length_pos.mpr he
    have hb := searchLoop_bounds lrc tq 0 ((lrc.length : Int) - 1) (-1)
      (by omega) (by omega) (by omega) (by omega)
    exact ⟨hb.1, hb.2, by omega⟩

/-- Witness instantiating `current_line_index_in_range` on an unsorted
timeline. -/
theorem current_line_index_in_range_witness :
    -1 ≤ current_line_index [⟨5, ['x']⟩, ⟨2, ['y']⟩] 3 ∧
    current_line_index [⟨5, ['x']⟩, ⟨2, ['y']⟩] 3 <
      (([⟨5, ['x']⟩, ⟨2, ['y']⟩] : List LyricLine).length : Int) ∧
    (0 ≤ current_line_index [⟨5, ['x']⟩, ⟨2, ['y']⟩] 3 →
      (current_line_index [⟨5, ['x']⟩, ⟨2, ['y']⟩] 3).toNat <
        ([⟨5, ['x']⟩, ⟨2, ['y']⟩] : List LyricLine).length) :=
  current_line_index_in_range [⟨5, ['x']⟩, ⟨2, ['y']⟩] 3

/-! ## Marquee scroller -/

/-- Python `int(q)` on a float: truncation toward zero. -/
def pytrunc (q : ℚ) : ℤ :=
  if 0 ≤ q then ⌊q⌋ else ⌈q⌉

/-- `marquee_slice_tick(text, max_chars, tick, cps, gap, fps)`.  The tick
counter of the render loop is a natural number (it starts at 0 and only
increments).  Python's `%` with a positive modulus yields a non-negative
result, as does `Int.emod`; the slice `loop[offset : offset + max_chars]`
is `drop`/`take` since `0 ≤ offset`. -/
def marquee_slice_tick (text : List Char) (max_chars : ℕ) (tick : ℕ)
    (cps : ℚ) (gap : ℕ) (fps : ℚ) : List Char :=
  if text.length ≤ max_chars then text
  else
    let step_per_frame : ℚ := cps / fps
    let offset : ℤ := pytrunc ((tick : ℚ) * step_per_frame) % ((text.length : ℤ) + gap)
    let loop := text ++ List.replicate gap ' ' ++ text
    (loop.drop offset.toNat).take max_chars

/-- Written from the spec's words: text unchanged when it fits, otherwise the
window of `maxVisibleChars` of `text + gap spaces + text` starting at offset
`floor(tick * charsPerSecond / framesPerSecond) mod (length(text) + gapChars)`. -/
def marqueeSpecSlice (text : List Char) (max_chars : ℕ) (tick : ℕ)
    (cps : ℚ) (gap : ℕ) (fps : ℚ) : List Char :=
  if text.length ≤ max_chars then text
  else
    (((text ++ List.replicate gap ' ' ++ text).drop
        ((⌊(tick : ℚ) * cps / fps⌋ % ((text.length : ℤ) + gap)).toNat)).take max_chars)

/-- C2: for non-negative scroll speed and positive frame rate (the
configuration clamps `cps ≥ 1` and fixes `fps = 30`), the code's slice
agrees with the spec's floor/mod/window description. -/
theorem marquee_slice_tick_eq_spec (text : List Char) (max_chars tick : ℕ)
    (cps : ℚ) (gap : ℕ) (fps : ℚ) (hc : 0 ≤ cps) (hf : 0 < fps) :
    marquee_slice_tick text max_chars tick cps gap fps =
      marqueeSpecSlice text max_chars tick cps gap fps := by
  simp only [marquee_slice_tick, marqueeSpecSlice]
  by_cases hfit : text.length ≤ max_chars
  · rw [if_pos hfit, if_pos hfit]
  · rw [if_neg hfit, if_neg hfit]
    have harg : (0 : ℚ) ≤ (tick : ℚ) * (cps / fps) := by positivity
    have htr : pytrunc ((tick : ℚ) * (cps / fps)) = ⌊(tick : ℚ) * cps / fps⌋ := by
      rw [pytrunc, if_pos harg, mul_div_assoc]
    rw [htr]

/-- Witness for `marquee_slice_tick_eq_spec`: text `"hello"` in a 3-char
window at tick 7, 2 chars/s, gap 3, 30 fps. -/
theorem marquee_slice_tick_eq_spec_witness :
    (0 : ℚ) ≤ 2 ∧ (0 : ℚ) < 30 ∧
    marquee_slice_tick ['h','e','l','l','o'] 3 7 2 3 30 =
      marqueeSpecSlice ['h','e','l','l','o'] 3 7 2 3 30 :=
  ⟨by norm_num, by norm_num,
    marquee_slice_tick_eq_spec ['h','e','l','l','o'] 3 7 2 3 30
      (by norm_num) (by norm_num)⟩

/-- C9 fails as stated: with `text = "ab"`, `maxVisibleChars = 1`,
`gap = 1`, `cps = 2`, `fps = 1` the claimed period is
`(2 + 1) * 1 / 2 = 1.5`, rounded to `2` (or truncated to `1`), yet the
slice at tick `0 + 2` (and at `0 + 1`) differs from the slice at tick `0`. -/
theorem marquee_period_counterexample :
    marquee_slice_tick ['a','b'] 1 (0 + 2) 2 1 1 ≠
      marquee_slice_tick ['a','b'] 1 0 2 1 1 ∧
    marquee_slice_tick ['a','b'] 1 (0 + 1) 2 1 1 ≠
      marquee_slice_tick ['a','b'] 1 0 2 1 1 := by
  have e0 : marquee_slice_tick ['a','b'] 1 0 2 1 1 = ['a'] := by
    norm_num [marquee_slice_tick, pytrunc]
  have e2 : marquee_slice_tick ['a','b'] 1 (0 + 2) 2 1 1 = ['b'] := by
    norm_num [marquee_slice_tick, pytrunc]
  have e1 : marquee_slice_tick ['a','b'] 1 (0 + 1) 2 1 1 = [' '] := by
    norm_num [marquee_slice_tick, pytrunc]
    decide
  rw [e0, e1, e2]
  exact ⟨by decide, by decide⟩

/-- C9 amended: the slice is periodic in the tick with period
`P = (length(text) + gap) * fps / cps` whenever that quantity is exactly an
integer number of frames (no rounding needed); with the shipped defaults
`fps = 30` and integer `cps` dividing `(len + gap) * 30` this always holds. -/
theorem marquee_slice_tick_periodic (text : List Char) (max_chars : ℕ)
    (cps : ℚ) (gap : ℕ) (fps : ℚ) (P : ℕ)
    (hfit : max_chars < text.length) (hc : 0 < cps) (hf : 0 < fps)
    (hP : (P : ℚ) = ((text.length : ℚ) + gap) * fps / cps) :
    ∀ tick : ℕ, marquee_slice_tick text max_chars (tick + P) cps gap fps =
      marquee_slice_tick text max_chars tick cps gap fps := by
  intro tick
  simp only [marquee_slice_tick]
  rw [if_neg (by omega), if_neg (by omega)]
  have hfne : fps ≠ 0 := ne_of_gt hf
  have hcne : cps ≠ 0 := ne_of_gt hc
  have hPval : (P : ℚ) * (cps / fps) = (text.length : ℚ) + gap := by
    rw [hP]
    field_simp
  have harg1 : (0 : ℚ) ≤ ((tick + P : ℕ) : ℚ) * (cps / fps) := by positivity
  have harg2 : (0 : ℚ) ≤ (tick : ℚ) * (cps / fps) := by positivity
  have hoff : pytrunc (((tick + P : ℕ) : ℚ) * (cps / fps)) % ((text.length : ℤ) + gap) =
      pytrunc ((tick : ℚ) * (cps / fps)) % ((text.length : ℤ) + gap) := by
    rw [pytrunc, if_pos harg1, pytrunc, if_pos harg2]
    have hsplit : ((tick + P : ℕ) : ℚ) * (cps / fps) =
        (tick : ℚ) * (cps / fps) + ((text.length : ℚ) + gap) := by
      push_cast
      rw [add_mul, hPval]
    rw [hsplit]
    have hcast : ((text.length : ℚ) + gap) = (((text.length : ℤ) + gap : ℤ) : ℚ) := by
      push_cast
      ring
    rw [hcast, Int.floor_add_int, Int.add_emod_self]
  rw [hoff]

/-- Witness for `marquee_slice_tick_periodic`: `"ab"`, window 1, gap 1,
1 char/s at 1 fps has exact period `P = 3`, checked at tick `0`. -/
theorem marquee_slice_tick_periodic_witness :
    (1 : ℕ) < (['a','b'] : List Char).length ∧ (0 : ℚ) < 1 ∧
    ((3 : ℕ) : ℚ) = (((['a','b'] : List Char).length : ℚ) + 1) * 1 / 1 ∧
    marquee_slice_tick ['a','b'] 1 (0 + 3) 1 1 1 =
      marquee_slice_tick ['a','b'] 1 0 1 1 1 :=
  ⟨by decide, by norm_num, by norm_num,
    marquee_slice_tick_periodic ['a','b'] 1 1 1 1 3 (by decide) (by norm_num)
      (by norm_num) (by norm_num) 0⟩

/-! ## Playback snapshots and progress extrapolation -/

/-- One entry of `item["album"]["images"]`: `width` and `url` may be absent
from the dict. -/
structure ImageVariant where
  width : Option ℤ
  url : Option (List Char)
deriving DecidableEq, Repr

/-- The parts of a track dict the core reads: `id`, `name`, artist names,
and the album image variants. -/
structure TrackItem where
  id : Option (List Char)
  name : List Char
  artists : List (List Char)
  images : List ImageVariant
deriving DecidableEq, Repr

/-- `PlaybackSnapshot` as built by `Poller.run`; `ts` is the wall-clock
observation time in seconds. -/
structure PlaybackSnapshot where
  item : Option TrackItem
  is_playing : Bool
  progress_ms : ℤ
  ts : ℚ
deriving DecidableEq, Repr

/-- The coordinator's per-frame progress computation: if a track is present
and playing, `progress_ms + int((time.time() - snapshot.ts) * 1000.0)`;
otherwise `progress_ms if item else 0`. -/
def displayed_progress_ms (snap : PlaybackSnapshot) (now : ℚ) : ℤ :=
  if snap.item.isSome && snap.is_playing then
    snap.progress_ms + pytrunc ((now - snap.ts) * 1000)
  else if snap.item.isSome then snap.progress_ms
  else 0

/-- C3 fails as stated for an absent track: the code displays `0`, not the
snapshot's `progress_ms` unchanged.  Snapshot: no item, paused,
`progress_ms = 7`. -/
theorem displayed_progress_counterexample :
    displayed_progress_ms ⟨none, false, 7, 0⟩ 0 = 0 ∧ (7 : ℤ) ≠ 0 := by
  constructor
  · rfl
  · decide

/-- C3 amended: for a query at wall-clock `now` at or after the snapshot's
observation time, a present playing track displays
`progress_ms + floor((now - ts) * 1000)` milliseconds; a present paused
track displays `progress_ms` unchanged; an absent track displays `0`
(which equals the snapshot's `progress_ms` for every snapshot the Poller
actually produces, since it builds absent snapshots with progress 0). -/
theorem displayed_progress_extrapolation (snap : PlaybackSnapshot) (now : ℚ)
    (hts : snap.ts ≤ now) :
    (snap.item.isSome = true → snap.is_playing = true →
      displayed_progress_ms snap now = snap.progress_ms + ⌊(now - snap.ts) * 1000⌋) ∧
    (snap.item.isSome = true → snap.is_playing = false →
      displayed_progress_ms snap now = snap.progress_ms) ∧
    (snap.item = none → displayed_progress_ms snap now = 0) := by
  refine ⟨?_, ?_, ?_⟩
  · intro hsome hplay
    unfold displayed_progress_ms
    rw [hsome, hplay]
    simp only [Bool.and_self, if_true]
    have harg : (0 : ℚ) ≤ (now - snap.ts) * 1000 := by
      have : (0 : ℚ) ≤ now - snap.ts := by linarith
      positivity
    rw [pytrunc, if_pos harg]
  · intro hsome hpause
    unfold displayed_progress_ms
    rw [hsome, hpause]
    simp
  · intro hnone
    unfold displayed_progress_ms
    rw [hnone]
    simp

/-- Witness for `displayed_progress_extrapolation`, realizing the concrete
case of the claim: playing, `progress_ms = 10000`, observed at `T0 = 0`,
queried at `T0 + 2.5 s` displays `12500`. -/
theorem displayed_progress_extrapolation_witness :
    (0 : ℚ) ≤ 5/2 ∧
    displayed_progress_ms ⟨some ⟨none, [], [], []⟩, true, 10000, 0⟩ (5/2) = 12500 := by
  refine ⟨by norm_num, ?_⟩
  have h := (displayed_progress_extrapolation
    ⟨some ⟨none, [], [], []⟩, true, 10000, 0⟩ (5/2) (by norm_num)).1 rfl rfl
  rw [h]
  norm_num

/-! ## Latest-value channels -/

/-- A bounded FIFO `queue.Queue`: capacity and buffered values, front
first. -/
structure Chan (α : Type) where
  cap : ℕ
  buf : List α
deriving DecidableEq, Repr

/-- `q.get_nowait()`: the front value and the remaining queue, or `none`
(`queue.Empty`) leaving the queue unchanged. -/
def get_nowait {α : Type} (c : Chan α) : Option α × Chan α :=
  match c.buf with
  | [] => (none, c)
  | x :: rest => (some x, ⟨c.cap, rest⟩)

/-- `q.put_nowait(v)`: appends at the back, or fails (`queue.Full`) when
the queue is at capacity. -/
def put_nowait {α : Type} (c : Chan α) (v : α) : Option (Chan α) :=
  if c.buf.length < c.cap then some ⟨c.cap, c.buf ++ [v]⟩ else none

/-- The `while True: q.get_nowait()` / `except queue.Empty: pass` drain
loop, by recursion on the buffered values. -/
def drainLoop {α : Type} (cap : ℕ) : List α → Chan α
  | [] => ⟨cap, []⟩
  | _ :: rest => drainLoop cap rest

def drainAll {α : Type} (c : Chan α) : Chan α := drainLoop c.cap c.buf

/-- Latest-value publish as implemented in `Poller.run`, `Fetcher.run` and
the coordinator's request push: drain everything pending, then
`put_nowait` the new value; a `queue.Full` failure is swallowed. -/
def publishLatest {α : Type} (c : Chan α) (v : α) : Chan α :=
  match put_nowait (drainAll c) v with
  | some c2 => c2
  | none => drainAll c

theorem drainAll_eq {α : Type} (c : Chan α) : drainAll c = ⟨c.cap, []⟩ := by
  unfold drainAll
  induction c.buf with
  | nil => rfl
  | cons x rest ih => rw [drainLoop, ih]

theorem publishLatest_eq {α : Type} (d : Chan α) (w : α) :
    publishLatest d w = if 0 < d.cap then ⟨d.cap, [w]⟩ else ⟨d.cap, []⟩ := by
  unfold publishLatest put_nowait
  rw [drainAll_eq]
  by_cases h : 0 < d.cap
  · simp [h]
  · simp [h]

/-- C4: for any starting channel state (with at least one slot of capacity,
true of all three channels: sizes 2, 1 and 1), publishing `v1` then `v2`
before any pull leaves exactly one pending value; one pull returns `v2` and
empties the channel; and after any publish at most one value is pending. -/
theorem publishLatest_latest_value {α : Type} (c : Chan α) (v1 v2 : α)
    (hcap : 1 ≤ c.cap) :
    (publishLatest (publishLatest c v1) v2).buf = [v2] ∧
    (get_nowait (publishLatest (publishLatest c v1) v2)).1 = some v2 ∧
    (get_nowait (publishLatest (publishLatest c v1) v2)).2.buf = [] ∧
    ∀ (d : Chan α) (w : α), (publishLatest d w).buf.length ≤ 1 := by
  have h1 := publishLatest_eq c v1
  rw [if_pos (by exact hcap)] at h1
  have h2 := publishLatest_eq (⟨c.cap, [v1]⟩ : Chan α) v2
  rw [if_pos (by exact hcap)] at h2
  rw [h1, h2]
  refine ⟨rfl, rfl, rfl, ?_⟩
  intro d w
  rw [publishLatest_eq d w]
  by_cases h : 0 < d.cap
  · rw [if_pos h]
    simp
  · rw [if_neg h]
    simp

/-- Witness for `publishLatest_latest_value`: a capacity-1 channel already
holding a stale value, with `v1 = 5`, `v2 = 6`. -/
theorem publishLatest_latest_value_witness :
    1 ≤ (⟨1, [9]⟩ : Chan ℕ).cap ∧
    (publishLatest (publishLatest (⟨1, [9]⟩ : Chan ℕ) 5) 6).buf = [6] ∧
    (get_nowait (publishLatest (publishLatest (⟨1, [9]⟩ : Chan ℕ) 5) 6)).1 = some 6 ∧
    (get_nowait (publishLatest (publishLatest (⟨1, [9]⟩ : Chan ℕ) 5) 6)).2.buf = [] ∧
    ∀ (d : Chan ℕ) (w : ℕ), (publishLatest d w).buf.length ≤ 1 :=
  ⟨by decide, publishLatest_latest_value ⟨1, [9]⟩ 5 6 (by decide)⟩

/-! ## Coordinator track-change logic -/

/-- Coordinator state relevant to track changes: the last-seen track id and
the request channel toward the Fetcher. -/
structure CoordState where
  last_seen_tid : Option (List Char)
  req_q : Chan TrackItem
deriving DecidableEq, Repr

/-- One iteration of the coordinator's track-change block:
`tid = item.get("id") if item else None`, then
`if tid and tid != last_seen_tid:` record the id, drain any pending
request and enqueue the item.  `tid` is falsy both when it is `None` and
when it is the empty string.  Returns the new state and whether a request
was enqueued. -/
def coordTrackStep (st : CoordState) (item : Option TrackItem) : CoordState × Bool :=
  match item with
  | none => (st, false)
  | some it =>
    match it.id with
    | none => (st, false)
    | some s =>
      if s ≠ [] ∧ some s ≠ st.last_seen_tid then
        (⟨some s, publishLatest st.req_q it⟩, true)
      else (st, false)

/-- The track-change block folded over a sequence of snapshot items,
returning the final state and the per-iteration enqueue flags. -/
def coordTrackRun (st : CoordState) (items : List (Option TrackItem)) :
    CoordState × List Bool :=
  match items with
  | [] => (st, [])
  | it :: rest =>
    let p := coordTrackStep st it
    let q := coordTrackRun p.1 rest
    (q.1, p.2 :: q.2)

/-- Concrete track items for the (trackA, trackA, trackB) scenario. -/
def itemA : TrackItem := ⟨some ['A'], ['a'], [], []⟩

def itemB : TrackItem := ⟨some ['B'], ['b'], [], []⟩

/-- C5 fails as stated in two ways.  (i) The enqueue condition is not
"track id differs from last-seen": with last-seen `"A"` and a snapshot
carrying no track id (which differs from `"A"`), no request is enqueued.
(ii) From a fresh coordinator (`last_seen_tid = None`), the sequence
(trackA, trackA, trackB) issues two requests — one at the first trackA
snapshot and one at trackB — not exactly one. -/
theorem coordTrackStep_counterexample :
    ((coordTrackStep ⟨some ['A'], ⟨1, []⟩⟩ none).2 = false ∧
      (none : Option (List Char)) ≠ some ['A']) ∧
    (coordTrackRun ⟨none, ⟨1, []⟩⟩ [some itemA, some itemA, some itemB]).2 =
      [true, false, true] := by
  refine ⟨⟨rfl, by decide⟩, ?_⟩
  decide

/-- C5 amended: a request is enqueued iff the snapshot carries a non-empty
track id that differs from the last-seen id; the last-seen id is then
updated to that id and the request channel holds exactly the new item;
otherwise the state is unchanged.  The (trackA, trackA, trackB) scenario
issues exactly one request, at the trackB snapshot, when trackA is already
the last-seen id. -/
theorem coordTrackStep_amended (st : CoordState) (item : Option TrackItem)
    (hcap : 1 ≤ st.req_q.cap) :
    ((coordTrackStep st item).2 = true ↔
      ∃ it, item = some it ∧ ∃ s, it.id = some s ∧ s ≠ [] ∧ some s ≠ st.last_seen_tid) ∧
    (∀ it, item = some it → (coordTrackStep st item).2 = true →
      (coordTrackStep st item).1.last_seen_tid = it.id ∧
      (coordTrackStep st item).1.req_q.buf = [it]) ∧
    ((coordTrackStep st item).2 = false → (coordTrackStep st item).1 = st) ∧
    (coordTrackRun ⟨some ['A'], ⟨1, []⟩⟩ [some itemA, some itemA, some itemB]).2 =
      [false, false, true] := by
  refine ⟨?_, ?_, ?_, by decide⟩
  · constructor
    · intro henq
      match item with
      | none => simp [coordTrackStep] at henq
      | some it =>
        match hid : it.id with
        | none => simp [coordTrackStep, hid] at henq
        | some s =>
          by_cases hc : s ≠ [] ∧ some s ≠ st.last_seen_tid
          · exact ⟨it, rfl, s, hid, hc.1, hc.2⟩
          · simp [coordTrackStep, hid, if_neg hc] at henq
    · rintro ⟨it, rfl, s, hid, hne, hdiff⟩
      simp [coordTrackStep, hid, if_pos (And.intro hne hdiff)]
  · rintro it rfl henq
    match hid : it.id with
    | none => simp [coordTrackStep, hid] at henq
    | some s =>
      by_cases hc : s ≠ [] ∧ some s ≠ st.last_seen_tid
      · have hbuf : (publishLatest st.req_q it).buf = [it] := by
          rw [publishLatest_eq, if_pos (by exact hcap)]
        simp [coordTrackStep, hid, if_pos hc, hbuf]
      · simp [coordTrackStep, hid, if_neg hc] at henq
  · intro hfl
    match item with
    | none => rfl
    | some it =>
      match hid : it.id with
      | none => simp [coordTrackStep, hid]
      | some s =>
        by_cases hc : s ≠ [] ∧ some s ≠ st.last_seen_tid
        · simp [coordTrackStep, hid, if_pos hc] at hfl
        · simp [coordTrackStep, hid, if_neg hc]

/-- Witness for `coordTrackStep_amended`: a capacity-1 request channel,
last-seen `"A"`, receiving a snapshot for track `"B"`. -/
theorem coordTrackStep_amended_witness :
    1 ≤ (⟨some ['A'], ⟨1, []⟩⟩ : CoordState).req_q.cap ∧
    (coordTrackStep ⟨some ['A'], ⟨1, []⟩⟩ (some itemB)).2 = true ∧
    (coordTrackStep ⟨some ['A'], ⟨1, []⟩⟩ (some itemB)).1.last_seen_tid = itemB.id ∧
    (coordTrackStep ⟨some ['A'], ⟨1, []⟩⟩ (some itemB)).1.req_q.buf = [itemB] := by
  refine ⟨by decide, ?_⟩
  have h := coordTrackStep_amended ⟨some ['A'], ⟨1, []⟩⟩ (some itemB) (by decide)
  have henq : (coordTrackStep ⟨some ['A'], ⟨1, []⟩⟩ (some itemB)).2 = true :=
    h.1.mpr ⟨itemB, rfl, ['B'], rfl, by decide, by decide⟩
  have hupd := h.2.1 itemB rfl henq
  exact ⟨henq, hupd.1, hupd.2⟩

/-! ## LRC parsing

Python string primitives used by `parse_lrc`, embedded over `List Char`.
-/

/-- The ASCII whitespace removed by `str.strip()`. -/
def isPySpace (c : Char) : Bool :=
  c = ' ' || c = '\t' || c = '\n' || c = '\r' || c = '\x0b' || c = '\x0c'

/-- `s.strip()`: drop whitespace from both ends. -/
def pyStrip (s : List Char) : List Char :=
  ((s.dropWhile isPySpace).reverse.dropWhile isPySpace).reverse

/-- `s.split(sep)` for a one-character separator: all pieces, empties
included; the result is always non-empty. -/
def splitChar (sep : Char) : List Char → List (List Char)
  | [] => [[]]
  | c :: rest =>
    if c = sep then [] :: splitChar sep rest
    else
      match splitChar sep rest with
      | [] => [[c]]
      | l :: ls => (c :: l) :: ls

/-- `s.splitlines()` restricted to `'\n'`-separated text (the only line
ending the program feeds it): like splitting on `'\n'` but empty input
gives no lines and a trailing newline does not produce a final empty
line. -/
def pySplitlines (s : List Char) : List (List Char) :=
  if s = [] then []
  else
    let parts := splitChar '\n' s
    if parts.getLast? = some [] then parts.dropLast else parts

/-- The numeral denoted by a digit string. -/
def digitsToNat (ds : List Char) : ℕ :=
  ds.foldl (fun a c => 10 * a + (c.toNat - 48)) 0

/-- A non-empty all-digit run parsed to its value. -/
def pyIntOfDigits (ds : List Char) : Option ℤ :=
  if ds ≠ [] ∧ ds.all Char.isDigit then some (digitsToNat ds : ℤ) else none

/-- Optional leading sign in front of a numeric literal body: `+` keeps
the value, `-` negates it, anything else is part of the body. -/
def pySigned {α : Type} (body : List Char → Option α) (neg : α → α) :
    List Char → Option α
  | [] => none
  | c :: ds =>
    if c = '+' then body ds
    else if c = '-' then (body ds).map neg
    else body (c :: ds)

/-- Models Python `int(string)` on the decimal strings this program can
meet: surrounding whitespace stripped, optional sign, then a non-empty
digit run (digit-grouping underscores and non-decimal bases are not
modelled; inputs using them are rejected rather than parsed). -/
def pyInt (s : List Char) : Option ℤ :=
  pySigned pyIntOfDigits Neg.neg (pyStrip s)

/-- Unsigned decimal body of a float literal: digits with an optional
fractional part, at least one digit overall. -/
def pyFloatBody (ds : List Char) : Option ℚ :=
  match splitChar '.' ds with
  | [ip] =>
    if ip ≠ [] ∧ ip.all Char.isDigit then some ((digitsToNat ip : ℤ) : ℚ) else none
  | [ip, fp] =>
    if (ip ≠ [] ∨ fp ≠ []) ∧ ip.all Char.isDigit ∧ fp.all Char.isDigit then
      some (((digitsToNat ip : ℤ) : ℚ) + (digitsToNat fp : ℚ) / (10 : ℚ) ^ fp.length)
    else none
  | _ => none

/-- Models Python `float(string)` on plain decimal literals: surrounding
whitespace stripped, optional sign, digits with an optional fractional
part (exponents, `inf`/`nan` and underscores are not modelled; such inputs
are rejected rather than parsed). -/
def pyFloat (s : List Char) : Option ℚ :=
  pySigned pyFloatBody Neg.neg (pyStrip s)

/-- The body of `parse_lrc`'s inner loop for one piece `p` of
`raw.split("]")[:-1]`: if `p` starts with `'['`, split the rest on `':'`
into exactly two parts `m, s` and build `LyricLine(int(m) * 60 + float(s),
lyric)`; any failure (wrong arity, unparsable number) is the swallowed
`except` and yields nothing. -/
def parseTimeTag (p : List Char) (lyric : List Char) : Option LyricLine :=
  match p with
  | '[' :: tag =>
    match splitChar ':' tag with
    | [m, s] =>
      match pyInt m, pyFloat s with
      | some mv, some sv => some ⟨(mv : ℚ) * 60 + sv, lyric⟩
      | _, _ => none
    | _ => none
  | _ => none

/-- One iteration of `parse_lrc`'s outer loop: blank lines are skipped;
otherwise the line is split on `']'`, the stripped last piece is the
lyric text, and every earlier piece is offered to `parseTimeTag`. -/
def lineEntries (raw : List Char) : List LyricLine :=
  if pyStrip raw = [] then []
  else
    let parts := splitChar (']') raw
    let lyric := pyStrip (parts.getLastD [])
    (parts.dropLast).filterMap (fun p => parseTimeTag p lyric)

/-- Stable ascending insertion by timestamp: an element is placed before
the first entry with a timestamp `≥` its own. -/
def stableInsert (x : LyricLine) : List LyricLine → List LyricLine
  | [] => [x]
  | y :: ys => if y.t < x.t then y :: stableInsert x ys else x :: y :: ys

/-- `out.sort(key=lambda a: a.t)`: Python's sort is a stable ascending
sort, realized here as stable insertion sort (any two stable ascending
sorts agree pointwise). -/
def pySortByT (l : List LyricLine) : List LyricLine :=
  l.foldr stableInsert []

/-- `parse_lrc(text)`: per-line entries in order, then the stable sort by
timestamp. -/
def parse_lrc (text : List Char) : List LyricLine :=
  pySortByT ((pySplitlines text).flatMap lineEntries)

/-- `"\n".join(lines)`, used to state per-line properties of the parser. -/
def joinLines : List (List Char) → List Char
  | [] => []
  | [l] => l
  | l :: rest => l ++ '\n' :: joinLines rest

/-! ### Character and string lemmas -/

theorem isPySpace_not_digit {c : Char} (h : isPySpace c = true) :
    c.isDigit = false := by
  unfold isPySpace at h
  simp only [Bool.or_eq_true, decide_eq_true_eq] at h
  rcases h with ((((h | h) | h) | h) | h) | h <;> subst h <;> decide

theorem digit_not_space {c : Char} (h : c.isDigit = true) : isPySpace c = false := by
  cases hsp : isPySpace c
  · rfl
  · rw [isPySpace_not_digit hsp] at h
    exact absurd h (by simp)

theorem all_digit_not_space {l : List Char} (hall : l.all Char.isDigit = true) :
    ∀ c ∈ l, isPySpace c = false :=
  fun c hc => digit_not_space (List.all_eq_true.mp hall c hc)

theorem not_mem_of_all_digit {l : List Char} (hall : l.all Char.isDigit = true)
    {x : Char} (hx : x.isDigit = false) : x ∉ l := by
  intro hmem
  have := List.all_eq_true.mp hall x hmem
  rw [hx] at this
  exact absurd this (by simp)

theorem dropWhile_eq_self_of_none {p : Char → Bool} {l : List Char}
    (h : ∀ c ∈ l, p c = false) : l.dropWhile p = l := by
  cases l with
  | nil => rfl
  | cons c rest =>
    rw [List.dropWhile_cons, h c (by simp)]
    simp

theorem pyStrip_eq_self {l : List Char} (h : ∀ c ∈ l, isPySpace c = false) :
    pyStrip l = l := by
  unfold pyStrip
  rw [dropWhile_eq_self_of_none h,
    dropWhile_eq_self_of_none (fun c hc => h c (List.mem_reverse.mp hc)),
    List.reverse_reverse]

theorem pyStrip_ne_nil {l : List Char} {x : Char} (hx : x ∈ l)
    (hxs : isPySpace x = false) : pyStrip l ≠ [] := by
  intro hcon
  unfold pyStrip at hcon
  rw [List.reverse_eq_nil_iff, List.dropWhile_eq_nil_iff] at hcon
  have hall : ∀ c ∈ l.dropWhile isPySpace, isPySpace c = true := by
    intro c hc
    exact hcon c (List.mem_reverse.mpr hc)
  have hsplit := List.takeWhile_append_dropWhile (p := isPySpace) (l := l)
  rw [← hsplit] at hx
  rcases List.mem_append.mp hx with hmem | hmem
  · rw [List.mem_takeWhile_imp hmem] at hxs
    exact absurd hxs (by simp)
  · rw [hall x hmem] at hxs
    exact absurd hxs (by simp)

theorem splitChar_ne_nil (sep : Char) (s : List Char) : splitChar sep s ≠ [] := by
  cases s with
  | nil => simp [splitChar]
  | cons c rest =>
    rw [splitChar]
    by_cases h : c = sep
    · rw [if_pos h]
      simp
    · rw [if_neg h]
      cases hsp : splitChar sep rest <;> simp

theorem splitChar_not_mem {sep : Char} {xs : List Char} (h : sep ∉ xs) :
    splitChar sep xs = [xs] := by
  induction xs with
  | nil => rfl
  | cons c rest ih =>
    have hc : c ≠ sep := fun hc => h (hc ▸ List.mem_cons_self c rest)
    have hr : sep ∉ rest := fun hr => h (List.mem_cons_of_mem _ hr)
    rw [splitChar, if_neg hc, ih hr]

theorem splitChar_append {sep : Char} (xs ys : List Char) (h : sep ∉ xs) :
    splitChar sep (xs ++ sep :: ys) = xs :: splitChar sep ys := by
  induction xs with
  | nil => rw [List.nil_append, splitChar, if_pos rfl]
  | cons c rest ih =>
    have hc : c ≠ sep := fun hc => h (hc ▸ List.mem_cons_self c rest)
    have hr : sep ∉ rest := fun hr => h (List.mem_cons_of_mem _ hr)
    rw [List.cons_append, splitChar, if_neg hc, ih hr]

theorem pySigned_cons {α : Type} (body : List Char → Option α) (neg : α → α)
    (c : Char) (ds : List Char) (hplus : c ≠ '+') (hminus : c ≠ '-') :
    pySigned body neg (c :: ds) = body (c :: ds) := by
  rw [pySigned, if_neg hplus, if_neg hminus]

/-- A digit is not a sign character. -/
theorem digit_ne_plus {c : Char} (h : c.isDigit = true) : c ≠ '+' := by
  intro hc
  rw [hc] at h
  exact absurd h (by decide)

theorem digit_ne_minus {c : Char} (h : c.isDigit = true) : c ≠ '-' := by
  intro hc
  rw [hc] at h
  exact absurd h (by decide)

/-- `int(m)` on a non-empty digit string yields its numeral value. -/
theorem pyInt_digits {m : List Char} (hne : m ≠ []) (hall : m.all Char.isDigit = true) :
    pyInt m = some ((digitsToNat m : ℤ)) := by
  have hs := pyStrip_eq_self (all_digit_not_space hall)
  cases m with
  | nil => exact absurd rfl hne
  | cons c rest =>
    have hcd : c.isDigit = true := List.all_eq_true.mp hall c (by simp)
    unfold pyInt
    rw [hs, pySigned_cons _ _ _ _ (digit_ne_plus hcd) (digit_ne_minus hcd)]
    unfold pyIntOfDigits
    rw [if_pos ⟨by simp, hall⟩]

/-- `float(s)` on `digits.digits` (integer part non-empty) yields
`intpart + fracpart / 10 ^ (number of fractional digits)`. -/
theorem pyFloat_digits {si sf : List Char} (hne : si ≠ [])
    (hdi : si.all Char.isDigit = true) (hdf : sf.all Char.isDigit = true) :
    pyFloat (si ++ '.' :: sf) =
      some ((digitsToNat si : ℚ) + (digitsToNat sf : ℚ) / (10 : ℚ) ^ sf.length) := by
  have hnospace : ∀ c ∈ si ++ '.' :: sf, isPySpace c = false := by
    intro c hc
    rcases List.mem_append.mp hc with hm | hm
    · exact digit_not_space (List.all_eq_true.mp hdi c hm)
    · rcases List.mem_cons.mp hm with hdot | hm2
      · rw [hdot]
        rfl
      · exact digit_not_space (List.all_eq_true.mp hdf c hm2)
  have hs : pyStrip (si ++ '.' :: sf) = si ++ '.' :: sf := pyStrip_eq_self hnospace
  have hdotsplit : splitChar '.' (si ++ '.' :: sf) = [si, sf] := by
    rw [splitChar_append si sf (not_mem_of_all_digit hdi (by decide)),
      splitChar_not_mem (not_mem_of_all_digit hdf (by decide))]
  have hbody : pyFloatBody (si ++ '.' :: sf) =
      some ((digitsToNat si : ℚ) + (digitsToNat sf : ℚ) / (10 : ℚ) ^ sf.length) := by
    simp only [pyFloatBody, hdotsplit]
    rw [if_pos ⟨Or.inl hne, hdi, hdf⟩]
    push_cast
    ring_nf
  cases hsi2 : si with
  | nil => exact absurd hsi2 hne
  | cons c rest =>
    subst hsi2
    have hcd : c.isDigit = true := List.all_eq_true.mp hdi c (by simp)
    unfold pyFloat
    rw [hs, List.cons_append,
      pySigned_cons _ _ _ _ (digit_ne_plus hcd) (digit_ne_minus hcd),
      ← List.cons_append, hbody]

/-! ### Time-tag expansion (C7) -/

/-- A well-formed time tag `[mm:ss.xx]` rendered as a string, with `mm`,
`ss`, `xx` given as digit strings. -/
def renderTag (m si sf : List Char) : List Char :=
  ('[' :: (m ++ ':' :: (si ++ '.' :: sf))) ++ [']']

/-- The timestamp a tag `[mm:ss.xx]` denotes: `60 * mm + ss.xx` seconds. -/
def tagValue (m si sf : List Char) : ℚ :=
  (digitsToNat m : ℚ) * 60 +
    ((digitsToNat si : ℚ) + (digitsToNat sf : ℚ) / (10 : ℚ) ^ sf.length)

/-- The three components of a tag are non-empty digit strings. -/
def WellFormedTag (p : List Char × List Char × List Char) : Prop :=
  p.1 ≠ [] ∧ p.1.all Char.isDigit = true ∧
    p.2.1 ≠ [] ∧ p.2.1.all Char.isDigit = true ∧
    p.2.2 ≠ [] ∧ p.2.2.all Char.isDigit = true

theorem parseTimeTag_wellformed (m si sf lyric : List Char) (hm : m ≠ [])
    (hdm : m.all Char.isDigit = true) (hsi : si ≠ [])
    (hdi : si.all Char.isDigit = true) (hdf : sf.all Char.isDigit = true) :
    parseTimeTag ('[' :: (m ++ ':' :: (si ++ '.' :: sf))) lyric =
      some ⟨tagValue m si sf, lyric⟩ := by
  have hsplit : splitChar ':' (m ++ ':' :: (si ++ '.' :: sf)) = [m, si ++ '.' :: sf] := by
    rw [splitChar_append m _ (not_mem_of_all_digit hdm (by decide)),
      splitChar_not_mem ?hninc]
    case hninc =>
      intro hc
      rcases List.mem_append.mp hc with hmm | hmm
      · exact not_mem_of_all_digit hdi (by decide) hmm
      · rcases List.mem_cons.mp hmm with h1 | h2
        · exact absurd h1 (by decide)
        · exact not_mem_of_all_digit hdf (by decide) h2
  simp only [parseTimeTag, hsplit, pyInt_digits hm hdm, pyFloat_digits hsi hdi hdf]
  unfold tagValue
  push_cast
  ring_nf

theorem filterMap_parseTimeTag (tags : List (List Char × List Char × List Char))
    (lyric : List Char) (hwf : ∀ p ∈ tags, WellFormedTag p) :
    tags.filterMap
        (fun p => parseTimeTag ('[' :: (p.1 ++ ':' :: (p.2.1 ++ '.' :: p.2.2))) lyric) =
      tags.map (fun p => ⟨tagValue p.1 p.2.1 p.2.2, lyric⟩) := by
  induction tags with
  | nil => rfl
  | cons p rest ih =>
    obtain ⟨h1, h2, h3, h4, _h5, h6⟩ := hwf p (by simp)
    rw [List.filterMap_cons, parseTimeTag_wellformed _ _ _ _ h1 h2 h3 h4 h6,
      List.map_cons, ih (fun q hq => hwf q (by simp [hq]))]

theorem splitChar_tags (tags : List (List Char × List Char × List Char))
    (trail : List Char) (hwf : ∀ p ∈ tags, WellFormedTag p)
    (htrail : (']') ∉ trail) :
    splitChar (']') ((tags.flatMap fun p => renderTag p.1 p.2.1 p.2.2) ++ trail) =
      (tags.map fun p => '[' :: (p.1 ++ ':' :: (p.2.1 ++ '.' :: p.2.2))) ++ [trail] := by
  induction tags with
  | nil =>
    simp only [List.flatMap_nil, List.nil_append, List.map_nil]
    exact splitChar_not_mem htrail
  | cons p rest ih =>
    obtain ⟨_h1, h2, _h3, h4, _h5, h6⟩ := hwf p (by simp)
    have hmem : (']') ∉ ('[' :: (p.1 ++ ':' :: (p.2.1 ++ '.' :: p.2.2))) := by
      intro hc
      rcases List.mem_cons.mp hc with hx | hx
      · exact absurd hx (by decide)
      rcases List.mem_append.mp hx with hy | hy
      · exact not_mem_of_all_digit h2 (by decide) hy
      rcases List.mem_cons.mp hy with hz | hz
      · exact absurd hz (by decide)
      rcases List.mem_append.mp hz with hw | hw
      · exact not_mem_of_all_digit h4 (by decide) hw
      rcases List.mem_cons.mp hw with hv | hv
      · exact absurd hv (by decide)
      · exact not_mem_of_all_digit h6 (by decide) hv
    rw [List.flatMap_cons, List.map_cons]
    have hassoc :
        ((renderTag p.1 p.2.1 p.2.2 ++ (rest.flatMap fun q => renderTag q.1 q.2.1 q.2.2)) ++ trail)
          = (('[' :: (p.1 ++ ':' :: (p.2.1 ++ '.' :: p.2.2))) ++
            (']' :: ((rest.flatMap fun q => renderTag q.1 q.2.1 q.2.2) ++ trail))) := by
      simp [renderTag]
    rw [hassoc, splitChar_append _ _ hmem, ih (fun q hq => hwf q (by simp [hq])),
      List.cons_append]

/-- C7: a line carrying `k ≥ 0` well-formed leading `[mm:ss.xx]` tags
followed by trailing text free of `']'` parses to exactly one `LyricLine`
per tag, in order, each with timestamp `60 * mm + ss.xx` and all sharing
the stripped trailing text; with zero tags it contributes no entries. -/
theorem lineEntries_time_tags (tags : List (List Char × List Char × List Char))
    (trail : List Char) (hwf : ∀ p ∈ tags, WellFormedTag p)
    (htrail : (']') ∉ trail) :
    lineEntries ((tags.flatMap fun p => renderTag p.1 p.2.1 p.2.2) ++ trail) =
      tags.map (fun p => ⟨tagValue p.1 p.2.1 p.2.2, pyStrip trail⟩) ∧
    (lineEntries ((tags.flatMap fun p => renderTag p.1 p.2.1 p.2.2) ++ trail)).length =
      tags.length := by
  have hmain : lineEntries ((tags.flatMap fun p => renderTag p.1 p.2.1 p.2.2) ++ trail) =
      tags.map (fun p => ⟨tagValue p.1 p.2.1 p.2.2, pyStrip trail⟩) := by
    cases tags with
    | nil =>
      simp only [List.flatMap_nil, List.nil_append, List.map_nil, lineEntries]
      by_cases hstrip : pyStrip trail = []
      · rw [if_pos hstrip]
      · rw [if_neg hstrip, splitChar_not_mem htrail]
        simp
    | cons p rest =>
      have hne : pyStrip (((p :: rest).flatMap fun q => renderTag q.1 q.2.1 q.2.2) ++ trail) ≠ [] := by
        apply pyStrip_ne_nil (x := '[')
        · simp [List.flatMap_cons, renderTag]
        · decide
      simp only [lineEntries]
      rw [if_neg hne, splitChar_tags _ _ hwf htrail,
        List.getLastD_concat, List.dropLast_concat, List.filterMap_map]
      exact filterMap_parseTimeTag _ _ hwf
  exact ⟨hmain, by rw [hmain, List.length_map]⟩

/-- Witness for `lineEntries_time_tags`: two tags `[01:02.5]` and
`[1:3.25]` before the text `"hi"`. -/
theorem lineEntries_time_tags_witness :
    (∀ p ∈ [((['0','1'], ['0','2'], ['5']) : List Char × List Char × List Char),
        (['1'], ['3'], ['2','5'])], WellFormedTag p) ∧
    lineEntries (([((['0','1'], ['0','2'], ['5']) : List Char × List Char × List Char),
          (['1'], ['3'], ['2','5'])].flatMap fun p => renderTag p.1 p.2.1 p.2.2) ++
        ['h','i']) =
      [((['0','1'], ['0','2'], ['5']) : List Char × List Char × List Char),
        (['1'], ['3'], ['2','5'])].map
        (fun p => ⟨tagValue p.1 p.2.1 p.2.2, pyStrip ['h','i']⟩) := by
  have hwf : ∀ p ∈ [((['0','1'], ['0','2'], ['5']) : List Char × List Char × List Char),
      (['1'], ['3'], ['2','5'])], WellFormedTag p := by
    intro p hp
    rcases List.mem_cons.mp hp with h | h
    · subst h
      exact ⟨by decide, by decide, by decide, by decide, by decide, by decide⟩
    · rcases List.mem_cons.mp h with h2 | h2
      · subst h2
        exact ⟨by decide, by decide, by decide, by decide, by decide, by decide⟩
      · simp at h2
  exact ⟨hwf, (lineEntries_time_tags _ ['h','i'] hwf (by decide)).1⟩

/-! ### Malformed-line tolerance (C6) -/

theorem flatMap_lineEntries_splitlines (s : List Char) :
    (pySplitlines s).flatMap lineEntries = (splitChar '\n' s).flatMap lineEntries := by
  simp only [pySplitlines]
  by_cases hs : s = []
  · rw [if_pos hs, hs]
    simp [splitChar, lineEntries, pyStrip]
  · rw [if_neg hs]
    by_cases hl : (splitChar '\n' s).getLast? = some []
    · rw [if_pos hl]
      have hne := splitChar_ne_nil '\n' s
      have hlast : (splitChar '\n' s).getLast hne = [] := by
        rw [List.getLast?_eq_getLast _ hne] at hl
        exact Option.some.inj hl
      conv_rhs => rw [← List.dropLast_concat_getLast hne]
      rw [List.flatMap_append, hlast]
      simp [lineEntries, pyStrip]
    · rw [if_neg hl]

theorem splitChar_joinLines :
    ∀ ls : List (List Char), ls ≠ [] → (∀ l ∈ ls, ('\n') ∉ l) →
      splitChar '\n' (joinLines ls) = ls := by
  intro ls
  induction ls with
  | nil => intro hne _; exact absurd rfl hne
  | cons l rest ih =>
    intro _ hnl
    cases rest with
    | nil => rw [joinLines, splitChar_not_mem (hnl l (by simp))]
    | cons r rs =>
      rw [joinLines, splitChar_append _ _ (hnl l (by simp)),
        ih (List.cons_ne_nil r rs) (fun x hx => hnl x (by simp [hx]))]
      intro h
      cases h

theorem parse_lrc_joinLines (ls : List (List Char)) (hnl : ∀ l ∈ ls, ('\n') ∉ l) :
    parse_lrc (joinLines ls) = pySortByT (ls.flatMap lineEntries) := by
  unfold parse_lrc
  rw [flatMap_lineEntries_splitlines]
  by_cases hne : ls = []
  · subst hne
    rw [joinLines]
    congr 1
  · rw [splitChar_joinLines ls hne hnl]

/-- Well-formed line `[00:04.00]second` of the concrete C6 instance. -/
def lrcGood1 : List Char :=
  ['[','0','0',':','0','4','.','0','0',']','s','e','c','o','n','d']

/-- Malformed line `bad line` (no time tag at all). -/
def lrcBad : List Char := ['b','a','d',' ','l','i','n','e']

/-- Well-formed line `[00:01.50]first`. -/
def lrcGood2 : List Char :=
  ['[','0','0',':','0','1','.','5','0',']','f','i','r','s','t']

/-- C6: a malformed line (one contributing no entries) never invalidates
the rest of the parse — removing it leaves the result unchanged — and on
the concrete input `[00:04.00]second` / `bad line` / `[00:01.50]first` the
parse is exactly the two well-formed entries, sorted by timestamp. -/
theorem parse_lrc_skips_malformed (pre post : List (List Char)) (bad : List Char)
    (hnl : ∀ l ∈ pre ++ bad :: post, ('\n') ∉ l) (hbad : lineEntries bad = []) :
    parse_lrc (joinLines (pre ++ bad :: post)) = parse_lrc (joinLines (pre ++ post)) ∧
    parse_lrc (joinLines [lrcGood1, lrcBad, lrcGood2]) =
      [⟨3/2, ['f','i','r','s','t']⟩, ⟨4, ['s','e','c','o','n','d']⟩] := by
  constructor
  · have hnl2 : ∀ l ∈ pre ++ post, ('\n') ∉ l := by
      intro l hl
      apply hnl
      rcases List.mem_append.mp hl with h | h
      · exact List.mem_append.mpr (Or.inl h)
      · exact List.mem_append.mpr (Or.inr (List.mem_cons_of_mem _ h))
    rw [parse_lrc_joinLines _ hnl, parse_lrc_joinLines _ hnl2,
      List.flatMap_append, List.flatMap_cons, hbad, List.flatMap_append]
    simp
  · simp +decide only [parse_lrc, pySplitlines, splitChar, lineEntries, pyStrip,
      isPySpace, parseTimeTag, pyInt, pySigned, pyIntOfDigits, pyFloat, pyFloatBody,
      digitsToNat, pySortByT, stableInsert, joinLines, lrcGood1, lrcBad, lrcGood2,
      List.dropWhile, List.foldl, List.foldr, List.flatMap, List.filterMap,
      List.reverse, List.reverseAux, List.dropLast, List.getLastD, List.getLast?,
      List.all, LyricLine.mk.injEq, List.append, List.map]
    simp
    norm_num

/-- Witness for `parse_lrc_skips_malformed`, dropping the malformed middle
line of the concrete instance. -/
theorem parse_lrc_skips_malformed_witness :
    (∀ l ∈ [lrcGood1] ++ lrcBad :: [lrcGood2], ('\n') ∉ l) ∧
    lineEntries lrcBad = [] ∧
    parse_lrc (joinLines ([lrcGood1] ++ lrcBad :: [lrcGood2])) =
      parse_lrc (joinLines ([lrcGood1] ++ [lrcGood2])) := by
  have hnl : ∀ l ∈ [lrcGood1] ++ lrcBad :: [lrcGood2], ('\n') ∉ l := by decide
  have hbad : lineEntries lrcBad = [] := by decide
  exact ⟨hnl, hbad,
    (parse_lrc_skips_malformed [lrcGood1] [lrcGood2] lrcBad hnl hbad).1⟩

/-! ## Album variant selection (C8) -/

/-- Python `min(x :: xs, key=f)`: the first element attaining the minimal
key. -/
def pyMinBy {α : Type} (f : α → ℤ) (x : α) (xs : List α) : α :=
  xs.foldl (fun b a => if f a < f b then a else b) x

/-- The Fetcher's album-image selection: with no variants the url stays
unset; otherwise `target = max(32, album_side)` and the variant whose
width (defaulted to 64 when absent) is closest to `target` is chosen.
(The `except` fallback to `imgs[-1]` fires only for widths that are not
integers, which the embedding's integer widths exclude.)  The chosen
variant's `url` is what `fetch_album_image` then receives, together with
resize side `album_side`. -/
def chooseAlbumVariant (imgs : List ImageVariant) (album_side : ℤ) :
    Option ImageVariant :=
  match imgs with
  | [] => none
  | x :: xs => some (pyMinBy (fun im => |im.width.getD 64 - max 32 album_side|) x xs)

theorem pyMinBy_min {α : Type} (f : α → ℤ) (x : α) (xs : List α) :
    pyMinBy f x xs ∈ x :: xs ∧ ∀ a ∈ x :: xs, f (pyMinBy f x xs) ≤ f a := by
  induction xs generalizing x with
  | nil =>
    refine ⟨by simp [pyMinBy], ?_⟩
    intro a ha
    rcases List.mem_cons.mp ha with h | h
    · rw [h]
      simp [pyMinBy]
    · simp at h
  | cons y ys ih =>
    unfold pyMinBy
    rw [List.foldl_cons]
    by_cases h : f y < f x
    · rw [if_pos h]
      obtain ⟨hm, hle⟩ := ih y
      unfold pyMinBy at hm hle
      refine ⟨List.mem_cons_of_mem x hm, ?_⟩
      intro a ha
      rcases List.mem_cons.mp ha with h1 | h1
      · rw [h1]
        calc f (List.foldl (fun b a => if f a < f b then a else b) y ys)
            ≤ f y := hle y (List.mem_cons_self y ys)
          _ ≤ f x := le_of_lt h
      · exact hle a h1
    · rw [if_neg h]
      obtain ⟨hm, hle⟩ := ih x
      unfold pyMinBy at hm hle
      refine ⟨?_, ?_⟩
      · rcases List.mem_cons.mp hm with h1 | h1
        · rw [h1]
          exact List.mem_cons_self _ _
        · exact List.mem_cons_of_mem x (List.mem_cons_of_mem y h1)
      · intro a ha
        rcases List.mem_cons.mp ha with h1 | h1
        · rw [h1]
          exact hle x (List.mem_cons_self x ys)
        · rcases List.mem_cons.mp h1 with h2 | h2
          · rw [h2]
            calc f (List.foldl (fun b a => if f a < f b then a else b) x ys)
                ≤ f x := hle x (List.mem_cons_self x ys)
              _ ≤ f y := le_of_not_lt h
          · exact hle a (List.mem_cons_of_mem x h2)

/-- Width-25 variant. -/
def varSmall : ImageVariant := ⟨some 25, some ['u','1']⟩

/-- Width-35 variant. -/
def varBig : ImageVariant := ⟨some 35, some ['u','2']⟩

/-- C8 fails as stated: with the shipped default `ALBUM_SIDE = 28` and
variants of widths 25 and 35, the code selects width 35 (closest to
`max(32, 28) = 32`), which is not closest to the resize side 28 — the
width-25 variant is strictly closer to 28. -/
theorem chooseAlbumVariant_counterexample :
    chooseAlbumVariant [varSmall, varBig] 28 = some varBig ∧
    ¬ |varBig.width.getD 64 - 28| ≤ |varSmall.width.getD 64 - 28| := by
  constructor
  · decide
  · decide

/-- C8 amended: for a non-empty variant list the Fetcher selects a variant
whose width is closest to `max(32, albumSide)` — the selection target is
the album side floored at 32, not the resize side itself (they coincide
only when `albumSide ≥ 32`). -/
theorem chooseAlbumVariant_closest (imgs : List ImageVariant) (side : ℤ)
    (h : imgs ≠ []) :
    ∃ ch, chooseAlbumVariant imgs side = some ch ∧ ch ∈ imgs ∧
      ∀ im ∈ imgs,
        |ch.width.getD 64 - max 32 side| ≤ |im.width.getD 64 - max 32 side| := by
  cases imgs with
  | nil => exact absurd rfl h
  | cons x xs =>
    obtain ⟨hm, hle⟩ := pyMinBy_min (fun im => |im.width.getD 64 - max 32 side|) x xs
    exact ⟨_, rfl, hm, hle⟩

/-- Witness for `chooseAlbumVariant_closest` on the two-variant list at
album side 28. -/
theorem chooseAlbumVariant_closest_witness :
    ([varSmall, varBig] : List ImageVariant) ≠ [] ∧
    ∃ ch, chooseAlbumVariant [varSmall, varBig] 28 = some ch ∧
      ch ∈ [varSmall, varBig] ∧
      ∀ im ∈ [varSmall, varBig],
        |ch.width.getD 64 - max 32 28| ≤ |im.width.getD 64 - max 32 28| :=
  ⟨by decide, chooseAlbumVariant_closest [varSmall, varBig] 28 (by decide)⟩

end LedBoard
